import Mathlib

/-!
# JSON export of an image analysis

A shallow embedding of `cmd/dive/cli/internal/command/export/export.go`
(`ConvertToJSON`, `NewExport`) together with the parts of the packages
`filetree` and `image` that the export calls.

Conventions of the embedding.

* Go `int` and `int64` are `Int`; `uint64` is `Nat`, and the one conversion
  `uint64(x)` of the source is `toUint64`, reduction modulo `2^64`.
* A Go `map[string]*T` is an association list `List (String × T)` whose keys
  are pairwise distinct (`NodupKeys`); `m[k]` is `List.lookup k m`.
* A pointer that the source tests against `nil`, or that may be `nil` because
  an error result was discarded, is an `Option`; dereferencing `none` is a
  run-time panic, so `NewExport` returns `Option Export`, `none` being the panic.
  The pointers inside the input (the analysis, its layers, their trees, the
  children of a node) are not `nil`.
* `float64` values are only copied; they are carried as their bit pattern.
-/

namespace Dive

/-! ## Package `filetree`: data shapes -/

namespace filetree

/-- Modelled from the spec: the diff classification of a node (§3 `diffType`);
the type declaration is not part of the source under study. -/
inductive DiffType where
  | Unmodified
  | Modified
  | Added
  | Removed
deriving DecidableEq

/-- Modelled from the spec: the kind of a filesystem entry (§3 `kind`). -/
inductive FileKind where
  | regular
  | directory
  | symlink
  | whiteout
deriving DecidableEq

/-- Modelled from the spec: the file-info payload of a node (§9: size, kind,
file-info), carried by the export as an opaque record. -/
structure FileInfo where
  Path : String
  Size : Int
  Kind : FileKind
deriving DecidableEq

/-- Modelled from the spec: the per-node payload `node.Data`, of which the
export reads `FileInfo` and `DiffType`. -/
structure NodeData where
  FileInfo : FileInfo
  DiffType : DiffType
deriving DecidableEq

/-- Modelled from the spec: a filesystem entry (§3 FileNode). `Children` is the
map from segment name to owned child; `path` is the path kept as a plain
string (§9). -/
inductive FileNode where
  | mk (Size : Int) (Name : String) (Data : NodeData)
      (Children : List (String × FileNode)) (path : String)

namespace FileNode

/-- Field `Size` of a node. -/
def Size : FileNode → Int
  | mk size _ _ _ _ => size

/-- Field `Name` of a node. -/
def Name : FileNode → String
  | mk _ name _ _ _ => name

/-- Field `Data` of a node. -/
def Data : FileNode → NodeData
  | mk _ _ data _ _ => data

/-- Field `Children` of a node. -/
def Children : FileNode → List (String × FileNode)
  | mk _ _ _ children _ => children

/-- Modelled from the spec: the method `Path()`, the path of the node as a
plain string (§9: computed on demand or cached redundantly as a string). -/
def Path : FileNode → String
  | mk _ _ _ _ path => path

end FileNode

/-- Modelled from the spec: a tree owns its root node (§3 FileTree). -/
structure FileTree where
  Root : FileNode

/-- Modelled from the spec: the error taxonomy of §7. -/
inductive Error where
  | InvalidRange
  | TraversalFailure
  | MalformedPath
deriving DecidableEq

/-- Modelled from the spec: the RangeKey of §3, four layer indices. -/
structure TreeIndexKey where
  bottomTreeStart : Int
  bottomTreeStop : Int
  topTreeStart : Int
  topTreeStop : Int
deriving DecidableEq

/-- Modelled from the spec: the constructor of a RangeKey, taking the four
indices in the order (bottomStart, bottomStop, topStart, topStop). -/
def NewTreeIndexKey (bottomTreeStart bottomTreeStop topTreeStart topTreeStop : Int) :
    TreeIndexKey :=
  { bottomTreeStart := bottomTreeStart, bottomTreeStop := bottomTreeStop,
    topTreeStart := topTreeStart, topTreeStop := topTreeStop }

/-- Modelled from the spec: the tree with a root of empty name and path and no
children, the squash of an empty layer range (§4.4 step 2). -/
def emptyTree : FileTree :=
  { Root := FileNode.mk 0 "" { FileInfo := { Path := "", Size := 0, Kind := FileKind.directory },
                               DiffType := DiffType.Unmodified } [] "" }

/-! ## Package `filetree`: the range cache (Comparer) -/

/-- Modelled from the spec: the engine of §4.4, the ordered per-layer trees and
the cache from RangeKey to a computed tree. -/
structure Comparer where
  refTrees : List FileTree
  trees : List (TreeIndexKey × FileTree)

/-- Modelled from the spec: a comparer over the given layer trees, with an
empty cache (entries are added lazily, §3 Cache). -/
def NewComparer (refTrees : List FileTree) : Comparer :=
  { refTrees := refTrees, trees := [] }

/-- Modelled from the spec: a requested layer range is acceptable when it is
not malformed (stop is at least start - 1, §7 InvalidRange) and every layer
index inside it lies in [0, layerCount) (§4.4 error conditions). -/
def validRange (layerCount : Nat) (start stop : Int) : Bool :=
  decide (start - 1 ≤ stop) && (decide (stop < start) || (decide (0 ≤ start) && decide (stop < layerCount)))

/-- Modelled from the spec: the layers start, start+1, ..., stop in order. -/
def layerRange (refTrees : List FileTree) (start stop : Int) : List FileTree :=
  (List.range' start.toNat (stop + 1 - start).toNat).filterMap (fun i => refTrees[i]?)

/-- Modelled from the spec: squashing a range is the left fold of Merge over
its layers, starting from the empty tree (§4.2, §4.4 steps 2 and 3). -/
def squash (Merge : FileTree → FileTree → FileTree) (refTrees : List FileTree)
    (start stop : Int) : FileTree :=
  (layerRange refTrees start stop).foldl Merge emptyTree

/-- Modelled from the spec: steps 2 to 4 of GetTree together with its error
conditions: an out-of-range or malformed key fails with InvalidRange, any
other key yields Diff(base, overlay). -/
def computeTree (Merge Diff : FileTree → FileTree → FileTree) (refTrees : List FileTree)
    (key : TreeIndexKey) : Except Error FileTree :=
  if validRange refTrees.length key.bottomTreeStart key.bottomTreeStop
      && validRange refTrees.length key.topTreeStart key.topTreeStop then
    Except.ok (Diff (squash Merge refTrees key.bottomTreeStart key.bottomTreeStop)
                    (squash Merge refTrees key.topTreeStart key.topTreeStop))
  else
    Except.error Error.InvalidRange

/-- Modelled from the spec: GetTree of §4.4. A cached key returns the cached
tree; otherwise the tree is computed and, on success, inserted into the cache.
A failure leaves the cache as it was (§7). -/
def GetTree (Merge Diff : FileTree → FileTree → FileTree) (cmp : Comparer)
    (key : TreeIndexKey) : Except Error FileTree × Comparer :=
  match cmp.trees.lookup key with
  | some tree => (Except.ok tree, cmp)
  | none =>
    match computeTree Merge Diff cmp.refTrees key with
    | Except.ok tree => (Except.ok tree, { cmp with trees := (key, tree) :: cmp.trees })
    | Except.error err => (Except.error err, cmp)

/-- Modelled from the spec: BuildCache of §4.4, the eager population of the
ranges "layer i vs layers 0..i-1" for every layer i. -/
def BuildCache (Merge Diff : FileTree → FileTree → FileTree) (cmp : Comparer) : Comparer :=
  (List.range cmp.refTrees.length).foldl
    (fun c i => (GetTree Merge Diff c (NewTreeIndexKey 0 ((i : Int) - 1) i i)).2) cmp

/-! ## Package `filetree`: child-first traversal -/

/-- Modelled from the spec: the visitor of §4.1, a Go `func(*FileNode) error`
acting on a state of type σ: the new state and the error it returns (`none`
for `nil`). -/
abbrev Visitor (σ : Type) := FileNode → σ → σ × Option Error

/-- Modelled from the spec: the sibling order of §4.1, by name: the lexical
order of the keys, code point by code point. -/
def nameLE {β : Type} (a b : String × β) : Prop := a.1.toList ≤ b.1.toList

instance nameLE.decidable {β : Type} : DecidableRel (nameLE : String × β → String × β → Prop) :=
  fun a b => inferInstanceAs (Decidable (a.1.toList ≤ b.1.toList))

/-- Modelled from the spec: siblings sorted by name (§4.1), by a stable
insertion sort on the keys. -/
def sortByName {β : Type} (l : List (String × β)) : List (String × β) :=
  List.insertionSort nameLE l

/-- Modelled from the spec: the per-child traversals run in the given order,
stopping at the first error and handing it to the caller (§4.1, §7
TraversalFailure). -/
def runSteps {σ : Type} : List (String × (σ → σ × Option Error)) → σ → σ × Option Error
  | [], s => (s, none)
  | (_, step) :: rest, s =>
    match step s with
    | (s1, some err) => (s1, some err)
    | (s1, none) => runSteps rest s1

mutual
/-- Modelled from the spec: child-first depth-first visit of a node (§4.1):
the children are visited first, siblings in name order, the walk aborting on
the first visitor error; then the node itself is handed to the visitor. -/
def visitNode {σ : Type} (visitor : Visitor σ) : FileNode → σ → σ × Option Error
  | FileNode.mk size name data children path => fun s =>
    match runSteps (sortByName (childSteps visitor children)) s with
    | (s1, some err) => (s1, some err)
    | (s1, none) => visitor (FileNode.mk size name data children path) s1
/-- Modelled from the spec: the traversals of the children of a node, each
paired with the key of the child. -/
def childSteps {σ : Type} (visitor : Visitor σ) :
    List (String × FileNode) → List (String × (σ → σ × Option Error))
  | [] => []
  | (key, child) :: rest => (key, visitNode visitor child) :: childSteps visitor rest
end

/-- Modelled from the spec: VisitDepthChildFirst of a tree (§4.1). The spec
does not say whether the root (the node of empty name) is itself handed to the
visitor; `visitRoot` selects either reading. -/
def VisitDepthChildFirst {σ : Type} (visitRoot : Bool) (tree : FileTree) (visitor : Visitor σ)
    (s : σ) : σ × Option Error :=
  if visitRoot then visitNode visitor tree.Root s
  else runSteps (sortByName (childSteps visitor tree.Root.Children)) s

/-- The operations of package `filetree` that the export takes as given: the
merge and diff of the tree engine, and the child-first traversal of a tree
(evaluator `nil`), which reaches the state of its visitor only by calling the
visitor. -/
structure Impl where
  Merge : FileTree → FileTree → FileTree
  Diff : FileTree → FileTree → FileTree
  VisitDepthChildFirst : {σ : Type} → FileTree → Visitor σ → σ → σ × Option Error

end filetree

/-! ## Package `image`: the analysis handed to the export -/

namespace diveImage

/-- Modelled from the spec: the LayerRecord of §3. -/
structure Layer where
  Id : String
  Index : Int
  Command : String
  Size : Nat
  Tree : filetree.FileTree
  Digest : String

/-- Modelled from the spec: the InefficiencyRecord of §3: path, occurrences
and cumulative size (an `int64`). -/
structure EfficiencyData where
  Path : String
  Nodes : List filetree.FileNode
  CumulativeSize : Int

/-- Modelled from the spec: the analysis result read by the export: the
layers, their trees, and the efficiency report (§6). `Efficiency` is the bit
pattern of the `float64` score. -/
structure Analysis where
  Layers : List Layer
  RefTrees : List filetree.FileTree
  Efficiency : Nat
  SizeBytes : Nat
  WastedBytes : Nat
  Inefficiencies : List EfficiencyData

end diveImage

open filetree

/-! ## Package `export` (export.go) -/

/-- Type `FileNodeJSON` (export.go, lines 39-45). -/
inductive FileNodeJSON where
  | mk (Size : Int) (Name : String) (Data : NodeData)
      (Children : List (String × FileNodeJSON)) (Path : String)

namespace FileNodeJSON

/-- Field `Size`. -/
def Size : FileNodeJSON → Int
  | mk size _ _ _ _ => size

/-- Field `Name`. -/
def Name : FileNodeJSON → String
  | mk _ name _ _ _ => name

/-- Field `Data`. -/
def Data : FileNodeJSON → NodeData
  | mk _ _ data _ _ => data

/-- Field `Children`. -/
def Children : FileNodeJSON → List (String × FileNodeJSON)
  | mk _ _ _ children _ => children

/-- Field `Path`. -/
def Path : FileNodeJSON → String
  | mk _ _ _ _ path => path

end FileNodeJSON

/-- Type `Layer` (export.go, lines 16-24). -/
structure Layer where
  Index : Int
  ID : String
  DigestID : String
  SizeBytes : Nat
  Command : String
  FileList : List FileInfo
  FileTree : Option FileNodeJSON

/-- Type `FileReference` (export.go, lines 33-37). -/
structure FileReference where
  References : Int
  SizeBytes : Nat
  Path : String
deriving DecidableEq

/-- Type `Image` (export.go, lines 26-31). -/
structure Image where
  SizeBytes : Nat
  InefficientBytes : Nat
  EfficiencyScore : Nat
  InefficientFiles : List FileReference

/-- Type `Export` (export.go, lines 11-14). -/
structure Export where
  Layer : List Layer
  Image : Image

mutual
/-- Body of `ConvertToJSON` for a non-nil node (export.go, lines 52-68). -/
def ConvertToJSON.node : FileNode → FileNodeJSON
  | FileNode.mk size name data children path =>
    FileNodeJSON.mk size name data (ConvertToJSON.children children)
      (FileNode.Path (FileNode.mk size name data children path))
/-- Loop over `node.Children` (export.go, lines 62-66): a child is converted
and stored under its key unless its DiffType is Unmodified. -/
def ConvertToJSON.children : List (String × FileNode) → List (String × FileNodeJSON)
  | [] => []
  | (key, value) :: rest =>
    if value.Data.DiffType ≠ DiffType.Unmodified then
      (key, ConvertToJSON.node value) :: ConvertToJSON.children rest
    else
      ConvertToJSON.children rest
end

/-- Function `ConvertToJSON` (export.go, lines 47-69). -/
def ConvertToJSON : Option FileNode → Option FileNodeJSON
  | none => none
  | some node => some (ConvertToJSON.node node)

/-- Conversion `uint64(x)` of an `int64`: reduction modulo 2^64. -/
def toUint64 (x : Int) : Nat := (x % 2 ^ 64).toNat

/-- The closure `visitor` of `NewExport` (export.go, lines 97-100): appends the
node's FileInfo to `layerFileList` and returns `nil`. -/
def NewExport.visitor : Visitor (List FileInfo) :=
  fun node layerFileList => (layerFileList ++ [node.Data.FileInfo], none)

/-- Loop over `analysis.Layers` (export.go, lines 89-114), from position `idx`
with the loop-carried `bottomStop`. The error of `GetTree` is discarded, so on
failure `tree` is nil and `tree.Root` panics (`none`); the error of the
traversal is only logged. -/
def NewExport.layers (ft : Impl) (bottomStart : Int) :
    Comparer → Int → Nat → List diveImage.Layer → Option (List Layer)
  | _, _, _, [] => some []
  | treeStack, bottomStop, idx, curLayer :: rest =>
    let bottomStop := if idx ≠ 0 then (idx : Int) - 1 else bottomStop
    match GetTree ft.Merge ft.Diff treeStack (NewTreeIndexKey bottomStart bottomStop idx idx) with
    | (Except.error _, _) => none
    | (Except.ok tree, treeStack) =>
      let jsonTree := ConvertToJSON (some tree.Root)
      let layerFileList := (ft.VisitDepthChildFirst curLayer.Tree NewExport.visitor []).1
      match NewExport.layers ft bottomStart treeStack bottomStop (idx + 1) rest with
      | none => none
      | some out =>
        some ({ Index := curLayer.Index, ID := curLayer.Id, DigestID := curLayer.Digest,
                SizeBytes := curLayer.Size, Command := curLayer.Command,
                FileList := layerFileList, FileTree := jsonTree } :: out)

/-- The keys handed to `GetTree` by the loop over the layers (export.go, lines
86-93), in order: the same loop, keeping only the key of each iteration. -/
def NewExport.requestedKeys (bottomStart : Int) :
    Int → Nat → List diveImage.Layer → List TreeIndexKey
  | _, _, [] => []
  | bottomStop, idx, _ :: rest =>
    let bottomStop := if idx ≠ 0 then (idx : Int) - 1 else bottomStop
    NewTreeIndexKey bottomStart bottomStop idx idx ::
      NewExport.requestedKeys bottomStart bottomStop (idx + 1) rest

/-- Loop "add file references" (export.go, lines 117-125) over the given
values of `idx`; an index outside the slice is a panic (`none`). -/
def NewExport.fileReferences (inefficiencies : List diveImage.EfficiencyData) :
    List Nat → Option (List FileReference)
  | [] => some []
  | idx :: rest =>
    match inefficiencies[inefficiencies.length - 1 - idx]? with
    | none => none
    | some fileData =>
      match NewExport.fileReferences inefficiencies rest with
      | none => none
      | some out =>
        some ({ References := fileData.Nodes.length, SizeBytes := toUint64 fileData.CumulativeSize,
                Path := fileData.Path } :: out)

/-- Function `NewExport` (export.go, lines 72-128). -/
def NewExport (ft : Impl) (analysis : diveImage.Analysis) : Option Export :=
  let treeStack := NewComparer analysis.RefTrees
  let treeStack := BuildCache ft.Merge ft.Diff treeStack
  let bottomStart : Int := 0
  let bottomStop : Int := 0
  match NewExport.layers ft bottomStart treeStack bottomStop 0 analysis.Layers with
  | none => none
  | some layers =>
    match NewExport.fileReferences analysis.Inefficiencies
        (List.range analysis.Inefficiencies.length) with
    | none => none
    | some inefficientFiles =>
      some { Layer := layers,
             Image := { InefficientFiles := inefficientFiles,
                        SizeBytes := analysis.SizeBytes,
                        EfficiencyScore := analysis.Efficiency,
                        InefficientBytes := analysis.WastedBytes } }

/-! ## Notions used to state the properties -/

/-- The keys of a Go map are pairwise distinct. -/
def NodupKeys {β : Type} (m : List (String × β)) : Prop := (m.map Prod.fst).Nodup

instance NodupKeys.decidable {β : Type} (m : List (String × β)) : Decidable (NodupKeys m) :=
  inferInstanceAs (Decidable ((m.map Prod.fst).Nodup))

mutual
/-- Every Children map of the tree below the node has pairwise distinct keys. -/
def keysDistinct : FileNode → Bool
  | FileNode.mk _ _ _ children _ => decide (NodupKeys children) && keysDistinct.children children
/-- The maps of all the listed children have pairwise distinct keys. -/
def keysDistinct.children : List (String × FileNode) → Bool
  | [] => true
  | (_, value) :: rest => keysDistinct value && keysDistinct.children rest
end

mutual
/-- The node and all of its descendants are Unmodified. -/
def allUnmodified : FileNode → Bool
  | FileNode.mk _ _ data children _ =>
    decide (data.DiffType = DiffType.Unmodified) && allUnmodified.children children
/-- All the listed children and their descendants are Unmodified. -/
def allUnmodified.children : List (String × FileNode) → Bool
  | [] => true
  | (_, value) :: rest => allUnmodified value && allUnmodified.children rest
end

mutual
/-- The classification rule of the TreeDiffer for directories (§4.3), in the
form the export relies on: a node is Unmodified only when all of its
descendants are Unmodified; required of the node and of every descendant. -/
def dirRule : FileNode → Bool
  | FileNode.mk _ _ data children _ =>
    (decide (data.DiffType ≠ DiffType.Unmodified) || allUnmodified.children children)
      && dirRule.children children
/-- The rule holds of all the listed children. -/
def dirRule.children : List (String × FileNode) → Bool
  | [] => true
  | (_, value) :: rest => dirRule value && dirRule.children rest
end

/-- The node reached from a node by following the segments of a path through
the Children maps (§3: path-addressed lookup); the empty path is the node
itself. -/
def nodeAt : FileNode → List String → Option FileNode
  | node, [] => some node
  | node, segment :: path =>
    match node.Children.lookup segment with
    | none => none
    | some child => nodeAt child path

/-- The node of an exported tree reached by following a path. -/
def jsonAt : FileNodeJSON → List String → Option FileNodeJSON
  | node, [] => some node
  | node, segment :: path =>
    match node.Children.lookup segment with
    | none => none
    | some child => jsonAt child path

mutual
/-- The nodes below and including a node in child-first depth-first order, as
the spec words it: every node after all of its descendants, siblings in name
order. -/
def childFirstOrder : FileNode → List FileNode
  | FileNode.mk size name data children path =>
    (sortByName (childFirstOrder.children children)).flatMap (fun kv => kv.2)
      ++ [FileNode.mk size name data children path]
/-- The child-first order of each listed child, paired with the child's key. -/
def childFirstOrder.children : List (String × FileNode) → List (String × List FileNode)
  | [] => []
  | (key, value) :: rest => (key, childFirstOrder value) :: childFirstOrder.children rest
end

/-- The nodes of a tree handed to the visitor, in child-first order, under
either reading of whether the root itself is visited. -/
def visitOrder (visitRoot : Bool) (tree : FileTree) : List FileNode :=
  if visitRoot then childFirstOrder tree.Root
  else (sortByName (childFirstOrder.children tree.Root.Children)).flatMap (fun kv => kv.2)

/-- Every cached tree is the tree that the key computes to: the invariant of
the cache of §3 (entries are immutable once inserted). -/
def CacheOK (Merge Diff : FileTree → FileTree → FileTree) (cmp : Comparer) : Prop :=
  ∀ key tree, cmp.trees.lookup key = some tree →
    computeTree Merge Diff cmp.refTrees key = Except.ok tree

/-- The key of the loop iteration at position `idx`, in closed form, for an
initial `bottomStop` of `b` (export.go, lines 86-93). -/
def keyAt (b : Int) (idx : Nat) : TreeIndexKey :=
  NewTreeIndexKey 0 (if idx ≠ 0 then (idx : Int) - 1 else b) idx idx

/-- The entry written to `data.Layer[idx]` in closed form: the metadata of the
layer, the file infos appended during the traversal of the layer's own tree,
and the converted root of the tree that the key computes to. -/
def layerEntry (ft : Impl) (refTrees : List FileTree) (key : TreeIndexKey)
    (curLayer : diveImage.Layer) : Layer :=
  { Index := curLayer.Index, ID := curLayer.Id, DigestID := curLayer.Digest,
    SizeBytes := curLayer.Size, Command := curLayer.Command,
    FileList := (ft.VisitDepthChildFirst curLayer.Tree NewExport.visitor []).1,
    FileTree := ConvertToJSON
      ((computeTree ft.Merge ft.Diff refTrees key).toOption.map (fun tree => tree.Root)) }
/-- The record stored for one inefficiency (export.go, lines 120-124). -/
def fileReferenceOf (fileData : diveImage.EfficiencyData) : FileReference :=
  { References := fileData.Nodes.length, SizeBytes := toUint64 fileData.CumulativeSize,
    Path := fileData.Path }

/-! ## Concrete inputs -/

namespace Sample

/-- A regular file of the given name, size and tag, at the top level. -/
def file (name : String) (size : Int) (tag : DiffType) : FileNode :=
  FileNode.mk size name
    { FileInfo := { Path := "/" ++ name, Size := size, Kind := FileKind.regular },
      DiffType := tag } [] ("/" ++ name)

/-- A directory of the given name and tag, at the top level, with the given
children. -/
def dir (name : String) (tag : DiffType) (children : List (String × FileNode)) : FileNode :=
  FileNode.mk 0 name
    { FileInfo := { Path := "/" ++ name, Size := 0, Kind := FileKind.directory },
      DiffType := tag } children ("/" ++ name)

/-- A root node with the given tag and children. -/
def root (tag : DiffType) (children : List (String × FileNode)) : FileNode :=
  FileNode.mk 0 ""
    { FileInfo := { Path := "/", Size := 0, Kind := FileKind.directory },
      DiffType := tag } children "/"

/-- Layer 0 of the scenario of §8: adds /a (100 bytes) and /b (50 bytes),
inserted in the order b, a. -/
def tree0 : FileTree :=
  { Root := root DiffType.Unmodified [("b", file "b" 50 DiffType.Unmodified), ("a", file "a" 100 DiffType.Unmodified)] }

/-- Layer 1 of the scenario of §8: /a of 200 bytes and a new /c of 10 bytes. -/
def tree1 : FileTree :=
  { Root := root DiffType.Unmodified [("c", file "c" 10 DiffType.Unmodified), ("a", file "a" 200 DiffType.Unmodified)] }

/-- A diffed tree with a Modified root: /a Modified, /b Unmodified, /c Added, and a directory /d,
Modified, holding an Unmodified /d/x and a Removed /d/y. -/
def diffed : FileNode :=
  root DiffType.Modified [("a", file "a" 200 DiffType.Modified), ("b", file "b" 50 DiffType.Unmodified),
        ("c", file "c" 10 DiffType.Added),
        ("d", dir "d" DiffType.Modified
                [("x", file "x" 1 DiffType.Unmodified), ("y", file "y" 2 DiffType.Removed)])]

/-- An implementation of the tree operations: the upper tree replaces the
lower one, the diff leaves the overlay as it is, and the traversal is the
child-first walk that visits the root. -/
def impl : Impl :=
  { Merge := fun _ upper => upper,
    Diff := fun _ overlay => overlay,
    VisitDepthChildFirst := fun tree visitor s => VisitDepthChildFirst true tree visitor s }

/-- The first layer. -/
def layer0 : diveImage.Layer :=
  { Id := "id0", Index := 0, Command := "ADD a b /", Size := 150, Tree := tree0,
    Digest := "sha256:0" }

/-- The second layer. -/
def layer1 : diveImage.Layer :=
  { Id := "id1", Index := 1, Command := "ADD a c /", Size := 210, Tree := tree1,
    Digest := "sha256:1" }

/-- An analysis of two layers whose inefficiency list is in descending order
of cumulative size. -/
def analysis : diveImage.Analysis :=
  { Layers := [layer0, layer1], RefTrees := [tree0, tree1], Efficiency := 0,
    SizeBytes := 360, WastedBytes := 100,
    Inefficiencies := [{ Path := "/a", Nodes := [file "a" 100 DiffType.Unmodified,
                                                 file "a" 200 DiffType.Unmodified],
                         CumulativeSize := 300 },
                       { Path := "/e", Nodes := [], CumulativeSize := 7 }] }

/-- The same analysis with the inefficiency list in ascending order. -/
def ascending : diveImage.Analysis :=
  { analysis with Inefficiencies := analysis.Inefficiencies.reverse }

/-- An analysis with one layer and no layer tree. -/
def noTrees : diveImage.Analysis :=
  { analysis with Layers := [layer0], RefTrees := [] }

end Sample

/-! ## The cache is invisible -/

theorem GetTree_refTrees (Merge Diff : FileTree → FileTree → FileTree) (cmp : Comparer)
    (key : TreeIndexKey) : (GetTree Merge Diff cmp key).2.refTrees = cmp.refTrees := by
  unfold GetTree
  cases cmp.trees.lookup key with
  | some tree => rfl
  | none =>
    cases computeTree Merge Diff cmp.refTrees key with
    | ok tree => rfl
    | error err => rfl

theorem GetTree_result (Merge Diff : FileTree → FileTree → FileTree) (cmp : Comparer)
    (key : TreeIndexKey) (h : CacheOK Merge Diff cmp) :
    (GetTree Merge Diff cmp key).1 = computeTree Merge Diff cmp.refTrees key := by
  unfold GetTree
  cases hl : cmp.trees.lookup key with
  | some tree => exact (h key tree hl).symm
  | none =>
    cases computeTree Merge Diff cmp.refTrees key with
    | ok tree => rfl
    | error err => rfl

theorem GetTree_cacheOK (Merge Diff : FileTree → FileTree → FileTree) (cmp : Comparer)
    (key : TreeIndexKey) (h : CacheOK Merge Diff cmp) :
    CacheOK Merge Diff (GetTree Merge Diff cmp key).2 := by
  unfold GetTree
  cases hl : cmp.trees.lookup key with
  | some tree => exact h
  | none =>
    cases hc : computeTree Merge Diff cmp.refTrees key with
    | error err => exact h
    | ok tree =>
      intro k t hk
      simp only [List.lookup_cons] at hk
      by_cases hkk : k = key
      · subst hkk
        simp at hk
        subst hk
        exact hc
      · have : (k == key) = false := by simpa using hkk
        rw [this] at hk
        exact h k t hk

theorem NewComparer_cacheOK (Merge Diff : FileTree → FileTree → FileTree)
    (refTrees : List FileTree) : CacheOK Merge Diff (NewComparer refTrees) := by
  intro k t hk
  simp [NewComparer] at hk

theorem BuildCache_fold (Merge Diff : FileTree → FileTree → FileTree) (idxs : List Nat) :
    ∀ cmp : Comparer, CacheOK Merge Diff cmp →
      CacheOK Merge Diff
          (idxs.foldl (fun c i => (GetTree Merge Diff c (NewTreeIndexKey 0 ((i : Int) - 1) i i)).2) cmp)
        ∧ (idxs.foldl (fun c i => (GetTree Merge Diff c (NewTreeIndexKey 0 ((i : Int) - 1) i i)).2)
            cmp).refTrees = cmp.refTrees := by
  induction idxs with
  | nil => intro cmp h; exact ⟨h, rfl⟩
  | cons i rest ih =>
    intro cmp h
    have := ih (GetTree Merge Diff cmp (NewTreeIndexKey 0 ((i : Int) - 1) i i)).2
      (GetTree_cacheOK Merge Diff cmp _ h)
    rw [GetTree_refTrees] at this
    exact this

theorem BuildCache_spec (Merge Diff : FileTree → FileTree → FileTree) (cmp : Comparer)
    (h : CacheOK Merge Diff cmp) :
    CacheOK Merge Diff (BuildCache Merge Diff cmp)
      ∧ (BuildCache Merge Diff cmp).refTrees = cmp.refTrees :=
  BuildCache_fold Merge Diff _ cmp h

theorem keyAt_succ (b c : Int) (idx : Nat) (h : 0 < idx) : keyAt b idx = keyAt c idx := by
  have : idx ≠ 0 := by omega
  simp [keyAt, this]

theorem layers_iff (ft : Impl) (layers : List diveImage.Layer) :
    ∀ (cmp : Comparer) (b : Int) (idx : Nat) (out : List Layer),
      CacheOK ft.Merge ft.Diff cmp →
      (NewExport.layers ft 0 cmp b idx layers = some out ↔
        (∀ p ∈ layers.enumFrom idx,
            ∃ t, computeTree ft.Merge ft.Diff cmp.refTrees (keyAt b p.1) = Except.ok t)
          ∧ out = (layers.enumFrom idx).map
              (fun p => layerEntry ft cmp.refTrees (keyAt b p.1) p.2)) := by
  induction layers with
  | nil =>
    intro cmp b idx out _
    simp [NewExport.layers, eq_comm]
  | cons l rest ih =>
    intro cmp b idx out h
    have hG : GetTree ft.Merge ft.Diff cmp (keyAt b idx)
        = (computeTree ft.Merge ft.Diff cmp.refTrees (keyAt b idx),
            (GetTree ft.Merge ft.Diff cmp (keyAt b idx)).2) := by
      rw [← GetTree_result ft.Merge ft.Diff cmp (keyAt b idx) h]
    have hcmp := GetTree_cacheOK ft.Merge ft.Diff cmp (keyAt b idx) h
    have hrt := GetTree_refTrees ft.Merge ft.Diff cmp (keyAt b idx)
    have hkey : NewTreeIndexKey 0 (if idx ≠ 0 then (idx : Int) - 1 else b) idx idx = keyAt b idx := rfl
    have hrest : ∀ p ∈ rest.enumFrom (idx + 1),
        keyAt (if idx ≠ 0 then (idx : Int) - 1 else b) p.1 = keyAt b p.1 := by
      intro p hp
      obtain ⟨i, x⟩ := p
      have := (List.mk_mem_enumFrom_iff_le_and_getElem?_sub.mp hp).1
      exact keyAt_succ _ _ _ (by simp at this ⊢; omega)
    simp only [NewExport.layers, hkey, List.enumFrom_cons, List.forall_mem_cons, List.map_cons]
    rw [hG]
    cases hc : computeTree ft.Merge ft.Diff cmp.refTrees (keyAt b idx) with
    | error err =>
      simp
    | ok t =>
      simp only []
      have ih2 := fun o => ih (GetTree ft.Merge ft.Diff cmp (keyAt b idx)).2
        (if idx ≠ 0 then (idx : Int) - 1 else b) (idx + 1) o hcmp
      rw [hrt] at ih2
      have hmap : (rest.enumFrom (idx + 1)).map
            (fun p => layerEntry ft cmp.refTrees
              (keyAt (if idx ≠ 0 then (idx : Int) - 1 else b) p.1) p.2)
          = (rest.enumFrom (idx + 1)).map
            (fun p => layerEntry ft cmp.refTrees (keyAt b p.1) p.2) :=
        List.map_congr_left (fun p hp => by rw [hrest p hp])
      have hall : (∀ p ∈ rest.enumFrom (idx + 1), ∃ t, computeTree ft.Merge ft.Diff cmp.refTrees
            (keyAt (if idx ≠ 0 then (idx : Int) - 1 else b) p.1) = Except.ok t)
          ↔ (∀ p ∈ rest.enumFrom (idx + 1), ∃ t, computeTree ft.Merge ft.Diff cmp.refTrees
            (keyAt b p.1) = Except.ok t) :=
        forall₂_congr (fun p hp => by rw [hrest p hp])
      rw [hmap, hall] at ih2
      cases hr : NewExport.layers ft 0 (GetTree ft.Merge ft.Diff cmp (keyAt b idx)).2
          (if idx ≠ 0 then (idx : Int) - 1 else b) (idx + 1) rest with
      | none =>
        simp only [false_iff, reduceCtorEq]
        rintro ⟨⟨_, hall2⟩, _⟩
        have := (ih2 _).mpr ⟨hall2, rfl⟩
        rw [hr] at this
        exact absurd this (by simp)
      | some o =>
        have ho := (ih2 o).mp hr
        simp only [Option.some.injEq]
        constructor
        · intro hout
          refine ⟨⟨⟨t, rfl⟩, ho.1⟩, ?_⟩
          rw [← hout, ← ho.2]
          simp [layerEntry, hc, Except.toOption]
        · rintro ⟨_, hout⟩
          rw [hout, ← ho.2]
          simp [layerEntry, hc, Except.toOption]

/-! ## The two loops of `NewExport` in closed form -/

theorem fileReferences_of_forall₂ (ineff : List diveImage.EfficiencyData) :
    ∀ (idxs : List Nat) (rs : List diveImage.EfficiencyData),
      List.Forall₂ (fun idx r => ineff[ineff.length - 1 - idx]? = some r) idxs rs →
      NewExport.fileReferences ineff idxs = some (rs.map fileReferenceOf) := by
  intro idxs rs h
  induction h with
  | nil => rfl
  | cons hr _ ih =>
    simp only [NewExport.fileReferences, hr, ih, List.map_cons, fileReferenceOf]

theorem fileReferences_range (ineff : List diveImage.EfficiencyData) :
    NewExport.fileReferences ineff (List.range ineff.length)
      = some (ineff.reverse.map fileReferenceOf) := by
  apply fileReferences_of_forall₂
  rw [List.forall₂_iff_get]
  refine ⟨by simp, ?_⟩
  intro i h1 h2
  have hi : i < ineff.length := by simpa using h1
  simp only [List.get_eq_getElem, List.getElem_range]
  rw [← List.getElem?_reverse hi]
  exact List.getElem?_eq_getElem h2

theorem requestedKeys_eq (layers : List diveImage.Layer) :
    ∀ (b : Int) (idx : Nat),
      NewExport.requestedKeys 0 b idx layers = (layers.enumFrom idx).map (fun p => keyAt b p.1) := by
  induction layers with
  | nil => intro b idx; rfl
  | cons l rest ih =>
    intro b idx
    simp only [NewExport.requestedKeys, List.enumFrom_cons, List.map_cons]
    rw [ih]
    refine congrArg₂ _ rfl (List.map_congr_left ?_)
    intro p hp
    obtain ⟨i, x⟩ := p
    have := (List.mk_mem_enumFrom_iff_le_and_getElem?_sub.mp hp).1
    exact keyAt_succ _ _ _ (by simp at this ⊢; omega)

theorem computeTree_keyAt (Merge Diff : FileTree → FileTree → FileTree) (refTrees : List FileTree)
    (idx : Nat) :
    (∃ t, computeTree Merge Diff refTrees (keyAt 0 idx) = Except.ok t) ↔ idx < refTrees.length := by
  unfold computeTree
  split
  · rename_i h
    simp only [Except.ok.injEq, exists_eq', true_iff]
    simp [validRange, keyAt, NewTreeIndexKey] at h
    omega
  · rename_i h
    simp only [reduceCtorEq, exists_false, false_iff]
    intro hlt
    apply h
    simp [validRange, keyAt, NewTreeIndexKey]
    split <;> omega

theorem NewExport_iff (ft : Impl) (a : diveImage.Analysis) (e : Export) :
    NewExport ft a = some e ↔
      a.Layers.length ≤ a.RefTrees.length ∧
      e = { Layer := (a.Layers.enumFrom 0).map
              (fun p => layerEntry ft a.RefTrees (keyAt 0 p.1) p.2),
            Image := { InefficientFiles := a.Inefficiencies.reverse.map fileReferenceOf,
                       SizeBytes := a.SizeBytes, EfficiencyScore := a.Efficiency,
                       InefficientBytes := a.WastedBytes } } := by
  have hB := BuildCache_spec ft.Merge ft.Diff (NewComparer a.RefTrees)
    (NewComparer_cacheOK ft.Merge ft.Diff a.RefTrees)
  have hL := fun out => layers_iff ft a.Layers
    (BuildCache ft.Merge ft.Diff (NewComparer a.RefTrees)) 0 0 out hB.1
  rw [hB.2] at hL
  have hrt : (NewComparer a.RefTrees).refTrees = a.RefTrees := rfl
  rw [hrt] at hL
  have hlen : (∀ p ∈ a.Layers.enumFrom 0,
        ∃ t, computeTree ft.Merge ft.Diff a.RefTrees (keyAt 0 p.1) = Except.ok t)
      ↔ a.Layers.length ≤ a.RefTrees.length := by
    simp only [computeTree_keyAt]
    constructor
    · intro h
      by_contra hc
      have hlt : a.RefTrees.length < a.Layers.length := by omega
      have hm : (a.RefTrees.length, a.Layers[a.RefTrees.length]) ∈ a.Layers.enumFrom 0 := by
        rw [List.mk_mem_enumFrom_iff_le_and_getElem?_sub]
        simp [List.getElem?_eq_getElem hlt]
      have := h _ hm
      simp at this
    · intro h p hp
      obtain ⟨i, x⟩ := p
      rw [List.mk_mem_enumFrom_iff_le_and_getElem?_sub] at hp
      have := List.getElem?_eq_some_iff.mp hp.2
      obtain ⟨hi, _⟩ := this
      simp at hi ⊢
      omega
  unfold NewExport
  simp only [fileReferences_range]
  cases hr : NewExport.layers ft 0 (BuildCache ft.Merge ft.Diff (NewComparer a.RefTrees)) 0 0
      a.Layers with
  | none =>
    simp only [false_iff, reduceCtorEq]
    rintro ⟨h1, _⟩
    have := (hL _).mpr ⟨hlen.mpr h1, rfl⟩
    rw [hr] at this
    exact absurd this (by simp)
  | some out =>
    have ho := (hL out).mp hr
    simp only [Option.some.injEq]
    constructor
    · intro he
      exact ⟨hlen.mp ho.1, by rw [← he, ho.2]⟩
    · rintro ⟨_, he⟩
      rw [he, ho.2]

theorem NewExport_isSome_iff (ft : Impl) (a : diveImage.Analysis) :
    (NewExport ft a).isSome = true ↔ a.Layers.length ≤ a.RefTrees.length := by
  rw [Option.isSome_iff_exists]
  constructor
  · rintro ⟨e, he⟩
    exact ((NewExport_iff ft a e).mp he).1
  · intro h
    exact ⟨_, (NewExport_iff ft a _).mpr ⟨h, rfl⟩⟩

theorem NewExport_layer (ft : Impl) (a : diveImage.Analysis) (e : Export)
    (he : NewExport ft a = some e) (idx : Nat) :
    e.Layer[idx]? = (a.Layers[idx]?).map (layerEntry ft a.RefTrees (keyAt 0 idx)) := by
  rw [((NewExport_iff ft a e).mp he).2]
  simp only [List.getElem?_map, List.getElem?_enumFrom, Option.map_map]
  cases a.Layers[idx]? with
  | none => rfl
  | some l => simp

theorem NewExport_layer_length (ft : Impl) (a : diveImage.Analysis) (e : Export)
    (he : NewExport ft a = some e) : e.Layer.length = a.Layers.length := by
  rw [((NewExport_iff ft a e).mp he).2]
  simp

theorem requestedKeys_getElem? (layers : List diveImage.Layer) (idx : Nat)
    (h : idx < layers.length) :
    (NewExport.requestedKeys 0 0 0 layers)[idx]? = some (keyAt 0 idx) := by
  rw [requestedKeys_eq]
  simp [List.getElem?_enumFrom, List.getElem?_eq_getElem h]

/-! ## The claims -/

/-- C1 (as amended): for every analysis with len(Layers) <= len(RefTrees),
NewExport returns an Export whose Layer list has exactly len(Layers) entries,
in the same order, the entry at every position carrying the Index, Id, Digest,
Size and Command of the layer at that position. -/
theorem C1_layer_metadata (ft : Impl) (a : diveImage.Analysis)
    (h : a.Layers.length ≤ a.RefTrees.length) :
    ∃ e : Export, NewExport ft a = some e ∧ e.Layer.length = a.Layers.length ∧
      ∀ (idx : Nat) (l : diveImage.Layer), a.Layers[idx]? = some l →
        ∃ x : Layer, e.Layer[idx]? = some x ∧ x.Index = l.Index ∧ x.ID = l.Id ∧
          x.DigestID = l.Digest ∧ x.SizeBytes = l.Size ∧ x.Command = l.Command := by
  obtain ⟨e, he⟩ := Option.isSome_iff_exists.mp ((NewExport_isSome_iff ft a).mpr h)
  refine ⟨e, he, NewExport_layer_length ft a e he, ?_⟩
  intro idx l hl
  refine ⟨layerEntry ft a.RefTrees (keyAt 0 idx) l, ?_, rfl, rfl, rfl, rfl, rfl⟩
  rw [NewExport_layer ft a e he idx, hl]
  rfl

/-- C1, witness: the two-layer sample analysis. -/
theorem C1_layer_metadata_witness :
    ∃ e : Export, NewExport Sample.impl Sample.analysis = some e ∧ e.Layer.length = 2 ∧
      ∀ (idx : Nat) (l : diveImage.Layer), Sample.analysis.Layers[idx]? = some l →
        ∃ x : Layer, e.Layer[idx]? = some x ∧ x.Index = l.Index ∧ x.ID = l.Id ∧
          x.DigestID = l.Digest ∧ x.SizeBytes = l.Size ∧ x.Command = l.Command :=
  C1_layer_metadata Sample.impl Sample.analysis (by decide)

/-- C1, counterexample to the claim as stated ("for every analysis"): on an
analysis with one layer and no layer tree the request for layer 0 is out of
range, GetTree fails, its nil tree is dereferenced and NewExport returns no
Export at all. -/
theorem C1_counterexample :
    Sample.noTrees.Layers.length = 1 ∧ Sample.noTrees.RefTrees.length = 0 ∧
      (GetTree Sample.impl.Merge Sample.impl.Diff
          (BuildCache Sample.impl.Merge Sample.impl.Diff (NewComparer Sample.noTrees.RefTrees))
          (NewTreeIndexKey 0 0 0 0)).1 = Except.error Error.InvalidRange ∧
      (NewExport Sample.impl Sample.noTrees).isSome = false := by
  refine ⟨rfl, rfl, rfl, rfl⟩

/-- C3 (as amended): for every layer position idx >= 1 the key NewExport hands
to GetTree is (0, idx-1, idx, idx), the range "layer idx vs layers 0..idx-1";
for idx = 0 it is (0, 0, 0, 0), the first layer against itself, whose bottom
range is not empty. In both cases the FileTree exported at idx is the
converted root of the tree that this key computes to. -/
theorem C3_requested_key (ft : Impl) (a : diveImage.Analysis) (e : Export) (idx : Nat)
    (x : Layer) (he : NewExport ft a = some e) (hx : e.Layer[idx]? = some x) :
    (NewExport.requestedKeys 0 0 0 a.Layers)[idx]?
        = some (if idx = 0 then NewTreeIndexKey 0 0 0 0
                else NewTreeIndexKey 0 ((idx : Int) - 1) idx idx) ∧
      ∃ t, computeTree ft.Merge ft.Diff a.RefTrees
              (if idx = 0 then NewTreeIndexKey 0 0 0 0
               else NewTreeIndexKey 0 ((idx : Int) - 1) idx idx) = Except.ok t ∧
        x.FileTree = ConvertToJSON (some t.Root) := by
  have hkey : keyAt 0 idx = (if idx = 0 then NewTreeIndexKey 0 0 0 0
      else NewTreeIndexKey 0 ((idx : Int) - 1) idx idx) := by
    by_cases h0 : idx = 0
    · subst h0; rfl
    · simp [keyAt, h0]
  have hlen := NewExport_layer_length ft a e he
  have hidx : idx < a.Layers.length := by
    rw [← hlen]
    exact (List.getElem?_eq_some_iff.mp hx).1
  have hlayer := NewExport_layer ft a e he idx
  rw [hx, List.getElem?_eq_getElem hidx] at hlayer
  have hle := ((NewExport_iff ft a e).mp he).1
  obtain ⟨t, ht⟩ := (computeTree_keyAt ft.Merge ft.Diff a.RefTrees idx).mpr (by omega)
  rw [← hkey]
  refine ⟨requestedKeys_getElem? a.Layers idx hidx, t, ht, ?_⟩
  simp only [Option.map_some', Option.some.injEq] at hlayer
  rw [hlayer]
  simp [layerEntry, ht, Except.toOption]

/-- C3, witness: position 1 of the two-layer sample analysis. -/
theorem C3_requested_key_witness :
    ∃ (e : Export) (x : Layer), NewExport Sample.impl Sample.analysis = some e ∧ e.Layer[1]? = some x ∧
      (NewExport.requestedKeys 0 0 0 Sample.analysis.Layers)[1]?
          = some (NewTreeIndexKey 0 0 1 1) ∧
      ∃ t, computeTree Sample.impl.Merge Sample.impl.Diff Sample.analysis.RefTrees
            (NewTreeIndexKey 0 0 1 1) = Except.ok t ∧
        x.FileTree = ConvertToJSON (some t.Root) := by
  obtain ⟨e, he⟩ := Option.isSome_iff_exists.mp
    (show (NewExport Sample.impl Sample.analysis).isSome = true by decide)
  have hlen := NewExport_layer_length Sample.impl Sample.analysis e he
  have h1 : 1 < e.Layer.length := by rw [hlen]; decide
  exact ⟨e, e.Layer[1], he, List.getElem?_eq_getElem h1,
    C3_requested_key Sample.impl Sample.analysis e 1 e.Layer[1] he (List.getElem?_eq_getElem h1)⟩

/-- C3, counterexample to the claim as stated ("including idx = 0"): for the
first layer the key handed to GetTree is (0, 0, 0, 0), which is not
(0, -1, 0, 0), and its bottom range is not empty (bottomStart > bottomStop
fails). -/
theorem C3_counterexample :
    (NewExport.requestedKeys 0 0 0 Sample.analysis.Layers)[0]? = some (NewTreeIndexKey 0 0 0 0) ∧
      NewTreeIndexKey 0 0 0 0 ≠ NewTreeIndexKey 0 ((0 : Int) - 1) 0 0 ∧
      ¬ ((NewTreeIndexKey 0 0 0 0).bottomTreeStart > (NewTreeIndexKey 0 0 0 0).bottomTreeStop) := by
  decide

/-- C4: for every analysis with len(Layers) <= len(RefTrees), every key that
NewExport hands to GetTree has its four indices in [0, len(RefTrees)) with
bottomStart <= bottomStop and topStart <= topStop and computes to a tree (no
InvalidRange), and NewExport returns: no nil tree is dereferenced. -/
theorem C4_requests_in_range (ft : Impl) (a : diveImage.Analysis)
    (h : a.Layers.length ≤ a.RefTrees.length) :
    (∀ key ∈ NewExport.requestedKeys 0 0 0 a.Layers,
        (0 ≤ key.bottomTreeStart ∧ key.bottomTreeStart < a.RefTrees.length) ∧
        (0 ≤ key.bottomTreeStop ∧ key.bottomTreeStop < a.RefTrees.length) ∧
        (0 ≤ key.topTreeStart ∧ key.topTreeStart < a.RefTrees.length) ∧
        (0 ≤ key.topTreeStop ∧ key.topTreeStop < a.RefTrees.length) ∧
        key.bottomTreeStart ≤ key.bottomTreeStop ∧ key.topTreeStart ≤ key.topTreeStop ∧
        ∃ t, computeTree ft.Merge ft.Diff a.RefTrees key = Except.ok t) ∧
      (NewExport ft a).isSome = true := by
  refine ⟨?_, (NewExport_isSome_iff ft a).mpr h⟩
  intro key hkey
  rw [requestedKeys_eq, List.mem_map] at hkey
  obtain ⟨⟨i, l⟩, hp, rfl⟩ := hkey
  rw [List.mk_mem_enumFrom_iff_le_and_getElem?_sub] at hp
  have hi : i < a.Layers.length := by
    have := (List.getElem?_eq_some_iff.mp hp.2).1
    simpa using this
  have hn : i < a.RefTrees.length := by omega
  refine ⟨?_, ?_, ?_, ?_, ?_, ?_, (computeTree_keyAt ft.Merge ft.Diff a.RefTrees i).mpr hn⟩ <;>
    simp only [keyAt, NewTreeIndexKey] <;> (try split) <;> omega

/-- C4, witness: the two-layer sample analysis, with two layer trees. -/
theorem C4_requests_in_range_witness :
    (∀ key ∈ NewExport.requestedKeys 0 0 0 Sample.analysis.Layers,
        (0 ≤ key.bottomTreeStart ∧ key.bottomTreeStart < Sample.analysis.RefTrees.length) ∧
        (0 ≤ key.bottomTreeStop ∧ key.bottomTreeStop < Sample.analysis.RefTrees.length) ∧
        (0 ≤ key.topTreeStart ∧ key.topTreeStart < Sample.analysis.RefTrees.length) ∧
        (0 ≤ key.topTreeStop ∧ key.topTreeStop < Sample.analysis.RefTrees.length) ∧
        key.bottomTreeStart ≤ key.bottomTreeStop ∧ key.topTreeStart ≤ key.topTreeStop ∧
        ∃ t, computeTree Sample.impl.Merge Sample.impl.Diff Sample.analysis.RefTrees key
          = Except.ok t) ∧
      (NewExport Sample.impl Sample.analysis).isSome = true :=
  C4_requests_in_range Sample.impl Sample.analysis (by decide)

theorem toUint64_emod (c : Int) : (toUint64 c : Int) = c % 2 ^ 64 := by
  unfold toUint64
  exact Int.toNat_of_nonneg (Int.emod_nonneg c (by norm_num))

theorem toUint64_of_nonneg (c : Int) (h0 : 0 ≤ c) (h1 : c < 2 ^ 63) : (toUint64 c : Int) = c := by
  rw [toUint64_emod]
  exact Int.emod_eq_of_lt h0 (by omega)

theorem NewExport_inefficientFiles (ft : Impl) (a : diveImage.Analysis) (e : Export)
    (he : NewExport ft a = some e) :
    e.Image.InefficientFiles = a.Inefficiencies.reverse.map fileReferenceOf := by
  rw [((NewExport_iff ft a e).mp he).2]

/-- C10: the InefficientFiles list of the result of NewExport has exactly
n = len(Inefficiencies) entries and is the reversal of the input list: entry i
is built from Inefficiencies[n-1-i], with References the number of its Nodes,
Path its Path, and SizeBytes its CumulativeSize reduced modulo 2^64, which is
CumulativeSize itself whenever that is a non-negative int64. -/
theorem C10_inefficient_files_reversed (ft : Impl) (a : diveImage.Analysis) (e : Export)
    (he : NewExport ft a = some e) :
    e.Image.InefficientFiles.length = a.Inefficiencies.length ∧
      ∀ i : Nat, i < a.Inefficiencies.length →
        ∃ (fd : diveImage.EfficiencyData) (r : FileReference),
          a.Inefficiencies[a.Inefficiencies.length - 1 - i]? = some fd ∧
          e.Image.InefficientFiles[i]? = some r ∧
          r.References = fd.Nodes.length ∧ r.Path = fd.Path ∧
          (r.SizeBytes : Int) = fd.CumulativeSize % 2 ^ 64 ∧
          (0 ≤ fd.CumulativeSize → fd.CumulativeSize < 2 ^ 63 →
            (r.SizeBytes : Int) = fd.CumulativeSize) := by
  have hf := NewExport_inefficientFiles ft a e he
  refine ⟨by rw [hf]; simp, ?_⟩
  intro i hi
  have h1 : a.Inefficiencies.length - 1 - i < a.Inefficiencies.length := by omega
  refine ⟨a.Inefficiencies[a.Inefficiencies.length - 1 - i], fileReferenceOf
    a.Inefficiencies[a.Inefficiencies.length - 1 - i], List.getElem?_eq_getElem h1, ?_, rfl, rfl,
    toUint64_emod _, toUint64_of_nonneg _⟩
  rw [hf, List.getElem?_map, List.getElem?_reverse hi, List.getElem?_eq_getElem h1]
  rfl

/-- C10, witness: the sample analysis, whose list (300, 7) is exported as
(7, 300). -/
theorem C10_inefficient_files_reversed_witness :
    ∃ e : Export, NewExport Sample.impl Sample.analysis = some e ∧
      e.Image.InefficientFiles.length = 2 ∧
      ∀ i : Nat, i < 2 →
        ∃ (fd : diveImage.EfficiencyData) (r : FileReference),
          Sample.analysis.Inefficiencies[2 - 1 - i]? = some fd ∧
          e.Image.InefficientFiles[i]? = some r ∧
          r.References = fd.Nodes.length ∧ r.Path = fd.Path ∧
          (r.SizeBytes : Int) = fd.CumulativeSize % 2 ^ 64 ∧
          (0 ≤ fd.CumulativeSize → fd.CumulativeSize < 2 ^ 63 →
            (r.SizeBytes : Int) = fd.CumulativeSize) := by
  obtain ⟨e, he⟩ := Option.isSome_iff_exists.mp
    (show (NewExport Sample.impl Sample.analysis).isSome = true by decide)
  exact ⟨e, he, C10_inefficient_files_reversed Sample.impl Sample.analysis e he⟩

/-- C2 (as amended): NewExport reports the inefficiency list reversed. When
every cumulative size is a non-negative int64, an input in descending order
of cumulative size is reported in ascending order of SizeBytes, and the
reported list is in descending order of SizeBytes when the input is in
ascending order of cumulative size. -/
theorem C2_inefficient_files_order (ft : Impl) (a : diveImage.Analysis) (e : Export)
    (he : NewExport ft a = some e)
    (hnn : ∀ fd ∈ a.Inefficiencies, 0 ≤ fd.CumulativeSize ∧ fd.CumulativeSize < 2 ^ 63) :
    (List.Pairwise (fun x y : diveImage.EfficiencyData => x.CumulativeSize ≥ y.CumulativeSize)
        a.Inefficiencies →
      List.Pairwise (fun x y : FileReference => x.SizeBytes ≤ y.SizeBytes)
        e.Image.InefficientFiles) ∧
    (List.Pairwise (fun x y : diveImage.EfficiencyData => x.CumulativeSize ≤ y.CumulativeSize)
        a.Inefficiencies →
      List.Pairwise (fun x y : FileReference => x.SizeBytes ≥ y.SizeBytes)
        e.Image.InefficientFiles) := by
  rw [NewExport_inefficientFiles ft a e he]
  have key : ∀ fd ∈ a.Inefficiencies, ((fileReferenceOf fd).SizeBytes : Int) = fd.CumulativeSize :=
    fun fd hfd => toUint64_of_nonneg _ (hnn fd hfd).1 (hnn fd hfd).2
  constructor
  · intro h
    rw [List.pairwise_map, List.pairwise_reverse]
    refine List.Pairwise.imp_of_mem ?_ h
    intro x y hx hy hxy
    have := key x hx
    have := key y hy
    omega
  · intro h
    rw [List.pairwise_map, List.pairwise_reverse]
    refine List.Pairwise.imp_of_mem ?_ h
    intro x y hx hy hxy
    have := key x hx
    have := key y hy
    omega

/-- C2, witness: the sample analysis, in descending order (300, 7). -/
theorem C2_inefficient_files_order_witness :
    ∃ e : Export, NewExport Sample.impl Sample.analysis = some e ∧
      (List.Pairwise (fun x y : diveImage.EfficiencyData => x.CumulativeSize ≥ y.CumulativeSize)
          Sample.analysis.Inefficiencies →
        List.Pairwise (fun x y : FileReference => x.SizeBytes ≤ y.SizeBytes)
          e.Image.InefficientFiles) ∧
      (List.Pairwise (fun x y : diveImage.EfficiencyData => x.CumulativeSize ≤ y.CumulativeSize)
          Sample.analysis.Inefficiencies →
        List.Pairwise (fun x y : FileReference => x.SizeBytes ≥ y.SizeBytes)
          e.Image.InefficientFiles) := by
  obtain ⟨e, he⟩ := Option.isSome_iff_exists.mp
    (show (NewExport Sample.impl Sample.analysis).isSome = true by decide)
  exact ⟨e, he, C2_inefficient_files_order Sample.impl Sample.analysis e he (by decide)⟩

/-- C2, counterexample to the claim as stated: the inefficiency list of the
sample analysis is in descending order of cumulative size (300, 7), and the
SizeBytes of the reported list are (7, 300): entry 0 is smaller than entry 1. -/
theorem C2_counterexample :
    List.Pairwise (fun x y : diveImage.EfficiencyData => x.CumulativeSize ≥ y.CumulativeSize)
        Sample.analysis.Inefficiencies ∧
      (NewExport Sample.impl Sample.analysis).map
          (fun e => e.Image.InefficientFiles.map (fun r => r.SizeBytes)) = some [7, 300] ∧
      ¬ List.Pairwise (fun x y : Nat => x ≥ y) [7, 300] := by
  decide

theorem allUnmodified_children_nil (children : List (String × FileNode))
    (h : allUnmodified.children children = true) : ConvertToJSON.children children = [] := by
  induction children with
  | nil => rfl
  | cons kv rest ih =>
    obtain ⟨key, value⟩ := kv
    simp only [allUnmodified.children, Bool.and_eq_true] at h
    have hv : value.Data.DiffType = DiffType.Unmodified := by
      cases value with
      | mk size name data children path =>
        simp only [allUnmodified, Bool.and_eq_true, decide_eq_true_eq] at h
        exact h.1.1
    simp only [ConvertToJSON.children, hv, ne_eq, not_true_eq_false, if_false]
    exact ih h.2

/-- C9: for every analysis with at least one layer, the key requested for
layer 0 is (0, 0, 0, 0); if the tree returned for it has all of its nodes
Unmodified, the FileTree exported for layer 0 is the root node alone, with an
empty Children map. -/
theorem C9_first_layer_tree_is_bare_root (ft : Impl) (a : diveImage.Analysis) (e : Export)
    (t : FileTree) (hne : 0 < a.Layers.length) (he : NewExport ft a = some e)
    (ht : (GetTree ft.Merge ft.Diff
            (BuildCache ft.Merge ft.Diff (NewComparer a.RefTrees))
            (NewTreeIndexKey 0 0 0 0)).1 = Except.ok t)
    (hu : allUnmodified t.Root = true) :
    (NewExport.requestedKeys 0 0 0 a.Layers)[0]? = some (NewTreeIndexKey 0 0 0 0) ∧
      ∃ x : Layer, e.Layer[0]? = some x ∧
        x.FileTree = some (FileNodeJSON.mk t.Root.Size t.Root.Name t.Root.Data [] t.Root.Path) := by
  have hpos : 0 < a.Layers.length := hne
  have hB := BuildCache_spec ft.Merge ft.Diff (NewComparer a.RefTrees)
    (NewComparer_cacheOK ft.Merge ft.Diff a.RefTrees)
  have hc : computeTree ft.Merge ft.Diff a.RefTrees (keyAt 0 0) = Except.ok t := by
    have := GetTree_result ft.Merge ft.Diff _ (NewTreeIndexKey 0 0 0 0) hB.1
    rw [hB.2] at this
    rw [← ht, this]
    rfl
  refine ⟨requestedKeys_getElem? a.Layers 0 hpos, layerEntry ft a.RefTrees (keyAt 0 0) a.Layers[0],
    ?_, ?_⟩
  · rw [NewExport_layer ft a e he 0, List.getElem?_eq_getElem hpos]
    rfl
  · cases hr : t.Root with
    | mk size name data children path =>
      rw [hr] at hu
      simp only [allUnmodified, Bool.and_eq_true] at hu
      simp [layerEntry, hc, Except.toOption, ConvertToJSON, hr, ConvertToJSON.node,
        allUnmodified_children_nil children hu.2, FileNode.Size, FileNode.Name, FileNode.Data,
        FileNode.Path]

/-- C9, witness: the sample analysis; the tree returned for (0, 0, 0, 0) is
the tree of layer 0, all of whose nodes are Unmodified. -/
theorem C9_first_layer_tree_is_bare_root_witness :
    ∃ (e : Export) (x : Layer), NewExport Sample.impl Sample.analysis = some e ∧
      e.Layer[0]? = some x ∧
      x.FileTree = some (FileNodeJSON.mk 0 ""
        { FileInfo := { Path := "/", Size := 0, Kind := FileKind.directory },
          DiffType := DiffType.Unmodified } [] "/") := by
  obtain ⟨e, he⟩ := Option.isSome_iff_exists.mp
    (show (NewExport Sample.impl Sample.analysis).isSome = true by decide)
  obtain ⟨_, x, hx, hx2⟩ := C9_first_layer_tree_is_bare_root Sample.impl Sample.analysis e
    Sample.tree0 (by decide) he rfl (by decide)
  exact ⟨e, x, he, hx, hx2⟩

/-! ## Conversion of a diffed tree -/

theorem convertChildren_eq (children : List (String × FileNode)) :
    ConvertToJSON.children children
      = (children.filter (fun kv => decide (kv.2.Data.DiffType ≠ DiffType.Unmodified))).map
          (fun kv => (kv.1, ConvertToJSON.node kv.2)) := by
  induction children with
  | nil => rfl
  | cons kv rest ih =>
    obtain ⟨key, value⟩ := kv
    by_cases h : value.Data.DiffType = DiffType.Unmodified
    · simp [ConvertToJSON.children, h, ih]
    · simp [ConvertToJSON.children, h, ih]

theorem lookup_eq_none_of_not_mem_keys {β : Type} (m : List (String × β)) (k : String)
    (h : k ∉ m.map Prod.fst) : m.lookup k = none := by
  induction m with
  | nil => rfl
  | cons kv rest ih =>
    obtain ⟨key, value⟩ := kv
    simp only [List.map_cons, List.mem_cons, not_or] at h
    have hb : (k == key) = false := by simpa using h.1
    rw [List.lookup_cons, hb]
    exact ih h.2

theorem lookup_mem {β : Type} (m : List (String × β)) (k : String) (v : β)
    (h : m.lookup k = some v) : (k, v) ∈ m := by
  induction m with
  | nil => simp at h
  | cons kv rest ih =>
    obtain ⟨key, value⟩ := kv
    rw [List.lookup_cons] at h
    by_cases hk : k = key
    · subst hk
      simp at h
      subst h
      exact List.mem_cons_self _ _
    · have : (k == key) = false := by simpa using hk
      rw [this] at h
      exact List.mem_cons_of_mem _ (ih h)

theorem convertChildren_lookup (children : List (String × FileNode)) (k : String)
    (h : NodupKeys children) :
    (ConvertToJSON.children children).lookup k
      = (children.lookup k).bind (fun c =>
          if c.Data.DiffType ≠ DiffType.Unmodified then some (ConvertToJSON.node c) else none) := by
  induction children with
  | nil => rfl
  | cons kv rest ih =>
    obtain ⟨key, value⟩ := kv
    have hnd : key ∉ rest.map Prod.fst ∧ NodupKeys rest := by
      simpa [NodupKeys] using h
    have ih2 := ih hnd.2
    by_cases hk : k = key
    · subst hk
      by_cases hv : value.Data.DiffType = DiffType.Unmodified
      · simp only [ConvertToJSON.children, hv, ne_eq, not_true_eq_false, if_false,
          List.lookup_cons_self, Option.bind_some]
        rw [ih2, lookup_eq_none_of_not_mem_keys rest k hnd.1]
        simp [hv]
      · simp [ConvertToJSON.children, hv]
    · have hb : (k == key) = false := by simpa using hk
      by_cases hv : value.Data.DiffType = DiffType.Unmodified
      · simp only [ConvertToJSON.children, hv, ne_eq, not_true_eq_false, if_false,
          List.lookup_cons, hb]
        exact ih2
      · simp only [ConvertToJSON.children, hv, ne_eq, not_false_eq_true, if_true,
          List.lookup_cons, hb]
        exact ih2

theorem convertChildren_nodupKeys (children : List (String × FileNode))
    (h : NodupKeys children) : NodupKeys (ConvertToJSON.children children) := by
  rw [convertChildren_eq]
  unfold NodupKeys at h ⊢
  rw [List.map_map]
  have : (Prod.fst ∘ fun kv : String × FileNode => (kv.1, ConvertToJSON.node kv.2)) = Prod.fst := by
    funext kv; rfl
  rw [this]
  exact (List.filter_sublist _).map Prod.fst |>.nodup h

/-- C8: ConvertToJSON(nil) is nil; for a non-nil node n, whatever its own
DiffType, the result carries Size, Name, Data and Path of n, and its Children
map holds exactly the keys of n.Children whose child is not Unmodified, each
mapped to the conversion of that child; an Unmodified child is absent, and
with it its whole subtree. -/
theorem C8_convert_node (n : FileNode) :
    ConvertToJSON none = none ∧
      ∃ j : FileNodeJSON, ConvertToJSON (some n) = some j ∧
        j.Size = n.Size ∧ j.Name = n.Name ∧ j.Data = n.Data ∧ j.Path = n.Path ∧
        (∀ (k : String) (jc : FileNodeJSON), (k, jc) ∈ j.Children ↔
          ∃ c : FileNode, (k, c) ∈ n.Children ∧ c.Data.DiffType ≠ DiffType.Unmodified ∧
            ConvertToJSON (some c) = some jc) ∧
        (NodupKeys n.Children →
          NodupKeys j.Children ∧
          ∀ k : String, j.Children.lookup k
            = (n.Children.lookup k).bind (fun c =>
                if c.Data.DiffType ≠ DiffType.Unmodified then ConvertToJSON (some c)
                else none)) := by
  refine ⟨rfl, ?_⟩
  cases n with
  | mk size name data children path =>
    refine ⟨_, rfl, rfl, rfl, rfl, rfl, ?_, ?_⟩
    · intro k jc
      simp only [ConvertToJSON.node, FileNodeJSON.Children, FileNode.Children, convertChildren_eq,
        List.mem_map, List.mem_filter, decide_eq_true_eq, ConvertToJSON, Option.some.injEq]
      constructor
      · rintro ⟨⟨k2, c⟩, ⟨hm, hc⟩, heq⟩
        simp only [Prod.mk.injEq] at heq
        obtain ⟨rfl, rfl⟩ := heq
        exact ⟨c, hm, hc, rfl⟩
      · rintro ⟨c, hm, hc, rfl⟩
        exact ⟨(k, c), ⟨hm, hc⟩, rfl⟩
    · intro hnd
      exact ⟨convertChildren_nodupKeys children hnd, fun k => convertChildren_lookup children k hnd⟩

/-- C8, witness: the diffed sample tree; /b, Unmodified, is absent from the
converted root and /a, Modified, is present. -/
theorem C8_convert_node_witness :
    NodupKeys Sample.diffed.Children ∧
      ∃ j : FileNodeJSON, ConvertToJSON (some Sample.diffed) = some j ∧
        (j.Children.lookup "b").isSome = false ∧ (j.Children.lookup "a").isSome = true := by
  refine ⟨by decide, ?_⟩
  obtain ⟨j, hj, _, _, _, _, _, hmap⟩ := (C8_convert_node Sample.diffed).2
  refine ⟨j, hj, ?_, ?_⟩
  · rw [(hmap (by decide)).2 "b"]; decide
  · rw [(hmap (by decide)).2 "a"]; decide

theorem keysDistinct_children_iff (children : List (String × FileNode)) :
    keysDistinct.children children = true ↔ ∀ kv ∈ children, keysDistinct kv.2 = true := by
  induction children with
  | nil => simp [keysDistinct.children]
  | cons kv rest ih =>
    obtain ⟨key, value⟩ := kv
    simp [keysDistinct.children, ih]

theorem allUnmodified_children_iff (children : List (String × FileNode)) :
    allUnmodified.children children = true ↔ ∀ kv ∈ children, allUnmodified kv.2 = true := by
  induction children with
  | nil => simp [allUnmodified.children]
  | cons kv rest ih =>
    obtain ⟨key, value⟩ := kv
    simp [allUnmodified.children, ih]

theorem dirRule_children_iff (children : List (String × FileNode)) :
    dirRule.children children = true ↔ ∀ kv ∈ children, dirRule kv.2 = true := by
  induction children with
  | nil => simp [dirRule.children]
  | cons kv rest ih =>
    obtain ⟨key, value⟩ := kv
    simp [dirRule.children, ih]

theorem allUnmodified_nodeAt (p : List String) :
    ∀ (n m : FileNode), allUnmodified n = true → nodeAt n p = some m →
      m.Data.DiffType = DiffType.Unmodified := by
  induction p with
  | nil =>
    intro n m hn hm
    simp only [nodeAt, Option.some.injEq] at hm
    subst hm
    cases n with
    | mk size name data children path =>
      simp only [allUnmodified, Bool.and_eq_true, decide_eq_true_eq] at hn
      exact hn.1
  | cons k rest ih =>
    intro n m hn hm
    cases n with
    | mk size name data children path =>
      simp only [nodeAt, FileNode.Children] at hm
      cases hl : children.lookup k with
      | none => simp [hl] at hm
      | some child =>
        simp only [hl] at hm
        simp only [allUnmodified, Bool.and_eq_true] at hn
        exact ih child m ((allUnmodified_children_iff children).mp hn.2 _
          (lookup_mem children k child hl)) hm

theorem dirRule_unmodified (n : FileNode) (h : dirRule n = true)
    (hu : n.Data.DiffType = DiffType.Unmodified) : allUnmodified n = true := by
  cases n with
  | mk size name data children path =>
    simp only [FileNode.Data] at hu
    simp only [dirRule, Bool.and_eq_true, Bool.or_eq_true, decide_eq_true_eq] at h
    simp only [allUnmodified, Bool.and_eq_true, decide_eq_true_eq]
    rcases h.1 with h1 | h1
    · exact absurd hu h1
    · exact ⟨hu, h1⟩

theorem jsonAt_convert (p : List String) :
    ∀ n : FileNode, keysDistinct n = true → dirRule.children n.Children = true → p ≠ [] →
      jsonAt (ConvertToJSON.node n) p
        = (nodeAt n p).bind (fun m =>
            if m.Data.DiffType ≠ DiffType.Unmodified then some (ConvertToJSON.node m) else none) := by
  induction p with
  | nil => intro n _ _ hp; exact absurd rfl hp
  | cons k rest ih =>
    intro n hk hd _
    cases n with
    | mk size name data children path =>
      simp only [keysDistinct, Bool.and_eq_true, decide_eq_true_eq] at hk
      simp only [FileNode.Children] at hd
      simp only [jsonAt, nodeAt, ConvertToJSON.node, FileNodeJSON.Children, FileNode.Children,
        convertChildren_lookup children k hk.1]
      cases hl : children.lookup k with
      | none => rfl
      | some child =>
        have hmem := lookup_mem children k child hl
        have hkc := (keysDistinct_children_iff children).mp hk.2 _ hmem
        have hdc := (dirRule_children_iff children).mp hd _ hmem
        have hL : (match (some child).bind (fun c =>
              if c.Data.DiffType ≠ DiffType.Unmodified then some (ConvertToJSON.node c)
              else none) with
            | none => none
            | some jc => jsonAt jc rest)
            = if child.Data.DiffType ≠ DiffType.Unmodified
                then jsonAt (ConvertToJSON.node child) rest else none := by
          by_cases hu : child.Data.DiffType = DiffType.Unmodified <;> simp [hu]
        refine hL.trans ?_
        show (if child.Data.DiffType ≠ DiffType.Unmodified
            then jsonAt (ConvertToJSON.node child) rest else none)
          = (nodeAt child rest).bind (fun m =>
              if m.Data.DiffType ≠ DiffType.Unmodified then some (ConvertToJSON.node m) else none)
        by_cases hu : child.Data.DiffType = DiffType.Unmodified
        · rw [if_neg (by simpa using hu)]
          cases hm : nodeAt child rest with
          | none => rfl
          | some m =>
            have := allUnmodified_nodeAt rest child m (dirRule_unmodified child hdc hu) hm
            simp [this]
        · rw [if_pos hu]
          by_cases hr : rest = []
          · subst hr
            simp [jsonAt, nodeAt, hu]
          · have hdcc : dirRule.children child.Children = true := by
              cases child with
              | mk s2 n2 d2 c2 p2 =>
                simp only [dirRule, Bool.and_eq_true] at hdc
                exact hdc.2
            exact ih child hkc hdcc hr

/-- C7: for every diffed tree in which a node is Unmodified only when all of
its descendants are Unmodified, ConvertToJSON loses no change: for every
non-root path p the output has a node at p if and only if the input has a node
at p whose DiffType is not Unmodified, and then the output node is the
conversion of that input node; in particular every Added, Modified and Removed
node of the input appears in the output. -/
theorem C7_no_change_lost (root : FileNode) (p : List String)
    (hk : keysDistinct root = true) (hd : dirRule root = true) (hp : p ≠ []) :
    ∃ out : FileNodeJSON, ConvertToJSON (some root) = some out ∧
      ((jsonAt out p).isSome = true ↔
        ∃ n : FileNode, nodeAt root p = some n ∧ n.Data.DiffType ≠ DiffType.Unmodified) ∧
      (∀ n : FileNode, nodeAt root p = some n →
        (n.Data.DiffType = DiffType.Added ∨ n.Data.DiffType = DiffType.Modified
          ∨ n.Data.DiffType = DiffType.Removed) →
        jsonAt out p = ConvertToJSON (some n)) := by
  have hdc : dirRule.children root.Children = true := by
    cases root with
    | mk size name data children path =>
      simp only [dirRule, Bool.and_eq_true] at hd
      exact hd.2
  have hj := jsonAt_convert p root hk hdc hp
  refine ⟨ConvertToJSON.node root, rfl, ?_, ?_⟩
  · rw [hj]
    cases hn : nodeAt root p with
    | none => simp
    | some n =>
      by_cases hu : n.Data.DiffType = DiffType.Unmodified
      · simp [hu]
      · simp [hu]
  · intro n hn hchg
    rw [hj, hn]
    have hu : n.Data.DiffType ≠ DiffType.Unmodified := by
      rcases hchg with h | h | h <;> rw [h] <;> decide
    simp [hu, ConvertToJSON]

/-- C7, witness: in the diffed sample tree the Removed node /d/y is present in
the output and the Unmodified node /d/x is not. -/
theorem C7_no_change_lost_witness :
    ∃ out : FileNodeJSON, ConvertToJSON (some Sample.diffed) = some out ∧
      (jsonAt out ["d", "y"]).isSome = true ∧ (jsonAt out ["d", "x"]).isSome = false := by
  obtain ⟨out, hout, hiff, _⟩ :=
    C7_no_change_lost Sample.diffed ["d", "y"] (by decide) (by decide) (by decide)
  refine ⟨out, hout, hiff.mpr ⟨Sample.file "y" 2 DiffType.Removed, rfl, by decide⟩, ?_⟩
  simp only [ConvertToJSON, Option.some.injEq] at hout
  subst hout
  decide

/-! ## Child-first traversal -/

theorem FileNode.sizeOf_child_lt (size : Int) (name : String) (data : NodeData)
    (children : List (String × FileNode)) (path : String) (kv : String × FileNode)
    (hkv : kv ∈ children) :
    sizeOf kv.2 < sizeOf (FileNode.mk size name data children path) := by
  have h1 := List.sizeOf_lt_of_mem hkv
  have h2 : sizeOf kv.2 < sizeOf kv := by
    cases kv; simp
  simp
  omega

theorem FileNode.induction {P : FileNode → Prop}
    (h : ∀ size name data children path, (∀ kv ∈ children, P kv.2) →
      P (FileNode.mk size name data children path)) : ∀ n, P n
  | FileNode.mk size name data children path =>
    h size name data children path (fun kv hkv =>
      have _hmem : kv ∈ children := hkv
      FileNode.induction h kv.2)
termination_by n => sizeOf n
decreasing_by
  have := FileNode.sizeOf_child_lt size name data children path kv hkv
  simp at this
  simp_wf
  omega

theorem childSteps_eq {σ : Type} (visitor : Visitor σ) (children : List (String × FileNode)) :
    childSteps visitor children = children.map (fun kv => (kv.1, visitNode visitor kv.2)) := by
  induction children with
  | nil => rfl
  | cons kv rest ih => obtain ⟨key, value⟩ := kv; simp [childSteps, ih]

theorem childFirstOrder_children_eq (children : List (String × FileNode)) :
    childFirstOrder.children children = children.map (fun kv => (kv.1, childFirstOrder kv.2)) := by
  induction children with
  | nil => rfl
  | cons kv rest ih => obtain ⟨key, value⟩ := kv; simp [childFirstOrder.children, ih]

theorem sortByName_map {β γ : Type} (f : β → γ) (l : List (String × β)) :
    sortByName (l.map (fun kv => (kv.1, f kv.2))) = (sortByName l).map (fun kv => (kv.1, f kv.2)) := by
  unfold sortByName
  exact (List.map_insertionSort nameLE nameLE (fun kv : String × β => (kv.1, f kv.2)) l
    (fun a _ b _ => Iff.rfl)).symm

theorem runSteps_visit (l : List (String × FileNode))
    (h : ∀ kv ∈ l, ∀ s : List FileInfo, visitNode NewExport.visitor kv.2 s
      = (s ++ (childFirstOrder kv.2).map (fun n => n.Data.FileInfo), none)) :
    ∀ s : List FileInfo,
      runSteps (l.map (fun kv => (kv.1, visitNode NewExport.visitor kv.2))) s
        = (s ++ (l.flatMap (fun kv => childFirstOrder kv.2)).map (fun n => n.Data.FileInfo),
            none) := by
  induction l with
  | nil => intro s; simp [runSteps]
  | cons kv rest ih =>
    intro s
    have hkv := h kv (List.mem_cons_self _ _) s
    have ih2 := ih (fun x hx => h x (List.mem_cons_of_mem _ hx))
    simp only [List.map_cons, runSteps, hkv, ih2, List.flatMap_cons, List.map_append,
      List.append_assoc]

theorem visitChildren_eq (children : List (String × FileNode))
    (h : ∀ kv ∈ children, ∀ s : List FileInfo, visitNode NewExport.visitor kv.2 s
      = (s ++ (childFirstOrder kv.2).map (fun n => n.Data.FileInfo), none))
    (s : List FileInfo) :
    runSteps (sortByName (childSteps NewExport.visitor children)) s
      = (s ++ ((sortByName (childFirstOrder.children children)).flatMap (fun kv => kv.2)).map
            (fun n => n.Data.FileInfo), none) := by
  rw [childSteps_eq, childFirstOrder_children_eq, sortByName_map, sortByName_map,
    runSteps_visit (sortByName children)
      (fun kv hkv => h kv ((List.mem_insertionSort nameLE).mp hkv)) s]
  simp [List.flatMap_map]

theorem visitNode_eq : ∀ (n : FileNode) (s : List FileInfo),
    visitNode NewExport.visitor n s
      = (s ++ (childFirstOrder n).map (fun n => n.Data.FileInfo), none) := by
  intro n
  induction n using FileNode.induction with
  | h size name data children path ih =>
    intro s
    simp only [visitNode, visitChildren_eq children ih s, childFirstOrder, NewExport.visitor,
      List.map_append, List.map_cons, List.map_nil, List.append_assoc]

theorem VisitDepthChildFirst_eq (visitRoot : Bool) (tree : FileTree) (s : List FileInfo) :
    VisitDepthChildFirst visitRoot tree NewExport.visitor s
      = (s ++ (visitOrder visitRoot tree).map (fun n => n.Data.FileInfo), none) := by
  unfold VisitDepthChildFirst visitOrder
  cases visitRoot with
  | true => simp [visitNode_eq]
  | false =>
    simp only [Bool.false_eq_true, if_false]
    exact visitChildren_eq tree.Root.Children (fun kv _ s => visitNode_eq kv.2 s) s

/-- C5: when the traversal is the child-first walk of the spec, the FileList
exported for a layer is the sequence of the FileInfo values of the nodes of
that layer's own tree (curLayer.Tree) in child-first depth-first order: one
entry per visited node, every node after all of its descendants, siblings in
name order; under either reading of whether the root is visited. -/
theorem C5_file_list_child_first (ft : Impl) (visitRoot : Bool) (a : diveImage.Analysis)
    (e : Export) (idx : Nat) (l : diveImage.Layer)
    (hft : ∀ (tree : FileTree) (visitor : Visitor (List FileInfo)) (s : List FileInfo),
      ft.VisitDepthChildFirst tree visitor s = VisitDepthChildFirst visitRoot tree visitor s)
    (he : NewExport ft a = some e) (hl : a.Layers[idx]? = some l) :
    ∃ x : Layer, e.Layer[idx]? = some x ∧
      x.FileList = (visitOrder visitRoot l.Tree).map (fun n => n.Data.FileInfo) := by
  refine ⟨layerEntry ft a.RefTrees (keyAt 0 idx) l, ?_, ?_⟩
  · rw [NewExport_layer ft a e he idx, hl]
    rfl
  · simp [layerEntry, hft, VisitDepthChildFirst_eq]

/-- C5, witness: layer 0 of the sample, whose tree holds b and a in that
order of insertion: the file list is /a, /b and then the root. -/
theorem C5_file_list_child_first_witness :
    ∃ (e : Export) (x : Layer), NewExport Sample.impl Sample.analysis = some e ∧
      e.Layer[0]? = some x ∧
      x.FileList.map (fun i => i.Path) = ["/a", "/b", "/"] := by
  obtain ⟨e, he⟩ := Option.isSome_iff_exists.mp
    (show (NewExport Sample.impl Sample.analysis).isSome = true by decide)
  obtain ⟨x, hx, hx2⟩ := C5_file_list_child_first Sample.impl true Sample.analysis e 0
    Sample.layer0 (fun _ _ _ => rfl) he rfl
  exact ⟨e, x, he, hx, by rw [hx2]; decide⟩

end Dive
